import Mathlib

/-!
Verification development for the charger-data scraping engine
(`src/scrapers/with_requests/base_scraper.py` and
`src/scrapers/with_requests/scrape_prices_with_api.py`).

The Python code is shallowly embedded: the fetch performed by
`query_url` is abstracted as a pure oracle `f : String → Outcome α`
classifying each identifier's fetch into the four behaviours the code
distinguishes (normal return, `requests.exceptions.Timeout`, any other
`requests.exceptions.RequestException`, or an exception outside the
transport taxonomy which the code does not catch).  Python dicts are
embedded as association lists with in-place-update insertion, which is
exactly the key/ordering semantics of `dict.__setitem__`.  Fallible
paths (uncaught exceptions) are embedded with `Except String`.
-/

/-- Outcome of one `query_url` call for one identifier, as classified by
the `try/except` in `base_scraper.query_urls` (lines 119-141):
`success` is a normal return carrying the payload, `timeout` is
`requests.exceptions.Timeout`, `otherFailure` is any other
`requests.exceptions.RequestException` (carrying its description), and
`fatal` is any exception outside the transport taxonomy, which no
`except` clause matches. -/
inductive Outcome (α : Type) where
  | success (payload : α)
  | timeout
  | otherFailure (detail : String)
  | fatal (detail : String)
deriving DecidableEq, Repr

namespace Outcome

/-- True exactly on a normal return. -/
def isSuccess : Outcome α → Bool
  | .success _ => true
  | _ => false

/-- True exactly on a transport timeout. -/
def isTimeout : Outcome α → Bool
  | .timeout => true
  | _ => false

/-- True exactly on an exception outside the transport taxonomy
(neither `Timeout` nor another `RequestException`). -/
def isFatal : Outcome α → Bool
  | .fatal _ => true
  | _ => false

end Outcome

/-- Python `dict` assignment `d[k] = v`: if the key is present its value
is replaced in place (insertion position kept), otherwise the pair is
appended at the end. -/
def dinsert (k : String) (v : α) : List (String × α) → List (String × α)
  | [] => [(k, v)]
  | (k1, v1) :: rest => if k1 = k then (k, v) :: rest else (k1, v1) :: dinsert k v rest

/-- Python `dict` lookup `d.get(k)`: the first (and, for lists built by
`dinsert`, only) entry with the given key. -/
def dlookup (k : String) : List (String × α) → Option α
  | [] => none
  | (k1, v) :: rest => if k1 = k then some v else dlookup k rest

/-- Loop body of `base_scraper.query_urls` (lines 112-142): iterate over
the shard's identifiers carrying the shared failure counter `ntimeouts`
and the accumulated `results` dict.  A success stores the payload; a
timeout increments the counter and halts once it strictly exceeds
`nmaxtimeouts` (line 128, `>`); another transport failure increments the
same counter and halts once it reaches `nmaxtimeouts` (line 137, `>=`);
a halt (`break`) returns the results accumulated so far; any exception
outside the two `except` clauses propagates (`Except.error`).  The
write-only local `timeoutted_identifiers` (never read or returned) and
the per-iteration sleep are omitted; `scraper_tools` and `options` are
folded into the fetch oracle `f`. -/
def query_urls_aux (f : String → Outcome α) (nmaxtimeouts : Nat) :
    List String → Nat → List (String × α) → Except String (List (String × α))
  | [], _, results => .ok results
  | identifier :: rest, ntimeouts, results =>
    match f identifier with
    | .success result =>
        query_urls_aux f nmaxtimeouts rest ntimeouts (dinsert identifier result results)
    | .timeout =>
        if ntimeouts + 1 > nmaxtimeouts then .ok results
        else query_urls_aux f nmaxtimeouts rest (ntimeouts + 1) results
    | .otherFailure _ =>
        if ntimeouts + 1 ≥ nmaxtimeouts then .ok results
        else query_urls_aux f nmaxtimeouts rest (ntimeouts + 1) results
    | .fatal detail => .error detail

/-- The batch runner `base_scraper.query_urls` on one shard: the loop
starting from `results = {}` and `ntimeouts = 0` (lines 112-113). -/
def query_urls (f : String → Outcome α) (nmaxtimeouts : Nat) (identifiers : List String) :
    Except String (List (String × α)) :=
  query_urls_aux f nmaxtimeouts identifiers 0 []

/-- Shard sizes produced by `numpy.array_split(arr, w)` on an array of
length `n`: the first `n % w` shards have `n / w + 1` elements, the
remaining ones `n / w`. -/
def splitSizes (n w : Nat) : List Nat :=
  (List.range w).map (fun i => if i < n % w then n / w + 1 else n / w)

/-- Cut a list into consecutive chunks of the given sizes. -/
def takeChunks : List α → List Nat → List (List α)
  | _, [] => []
  | l, s :: ss => l.take s :: takeChunks (l.drop s) ss

/-- Embedding of `numpy.array_split(identifiers, max_workers)`
(line 156): `w` contiguous near-equal shards, larger shards first. -/
def arraySplit (l : List α) (w : Nat) : List (List α) :=
  takeChunks l (splitSizes l.length w)

/-- Python `dict.update`-style fold of one per-worker results dict into
the accumulator, entry by entry, as the dict comprehension on line 163
does for one `results_worker`. -/
def mergeOne (acc m : List (String × α)) : List (String × α) :=
  m.foldl (fun a p => dinsert p.1 p.2 a) acc

/-- The flattening dict comprehension of `query_urls_parallel`
(line 163): all per-worker dicts merged in worker order into one dict. -/
def mergeAll (maps : List (List (String × α))) : List (String × α) :=
  maps.foldl mergeOne []

/-- Embedding of `base_scraper.query_urls_parallel` (lines 144-163):
split the identifiers into `max_workers` shards with
`numpy.array_split`, run `query_urls` on each shard, and merge the
per-shard dicts.  `numpy.array_split` raises `ValueError` for a
non-positive section count; `list(executor.map(...))` re-raises the
first worker exception, which `mapM` models. -/
def query_urls_parallel (f : String → Outcome α) (nmaxtimeouts : Nat)
    (identifiers : List String) (max_workers : Int) :
    Except String (List (String × α)) :=
  if max_workers ≤ 0 then .error "ValueError: number sections must be larger than 0."
  else do
    let results_workers ← (arraySplit identifiers max_workers.toNat).mapM
      (fun shard => query_urls f nmaxtimeouts shard)
    pure (mergeAll results_workers)

/-- Successful-fetch accumulation: the dict that the `query_urls` loop
builds over a run of identifiers none of whose fetches halt it (each
success is stored with `dinsert`, each tolerated failure stores
nothing). -/
def accSucc (f : String → Outcome α) : List String → List (String × α) → List (String × α)
  | [], acc => acc
  | i :: rest, acc =>
    match f i with
    | .success p => accSucc f rest (dinsert i p acc)
    | _ => accSucc f rest acc

/-- Number of timeouts the oracle assigns within a run of identifiers. -/
def countT (f : String → Outcome α) (l : List String) : Nat :=
  l.countP (fun i => (f i).isTimeout)

/-- Number of non-successes the oracle assigns within a run of
identifiers (the amount by which the shared `ntimeouts` counter grows
over it, absent a halt). -/
def countF (f : String → Outcome α) (l : List String) : Nat :=
  l.countP (fun i => !(f i).isSuccess)

/-- Witness oracle for C3: `"c"` succeeds, everything else times out. -/
def wfT : String → Outcome Nat := fun i => if i = "c" then .success 7 else .timeout

/-- Witness oracle for C4: `"c"` succeeds, everything else fails with a
generic transport error. -/
def wfG : String → Outcome Nat := fun i => if i = "c" then .success 7 else .otherFailure "boom"

/-- Witness oracle for C5: every fetch succeeds with the identifier
itself as payload. -/
def wfS : String → Outcome String := fun i => .success i

/-- Witness oracle for C6: `"a"` succeeds, everything else fails. -/
def wfR : String → Outcome Nat := fun i => if i = "a" then .success 3 else .otherFailure "x"

/-- Witness oracle for C7: `"a"` succeeds, `"b"` raises outside the
transport taxonomy, `"c"` times out. -/
def wfF : String → Outcome Nat := fun i =>
  if i = "a" then .success 1 else if i = "b" then .fatal "JSONDecodeError" else .timeout

/-- Python-level value supplied for an argument checked with
`isinstance`: an `int`, a `str`, or a value of any other type (carrying
its type name for the error message). -/
inductive PyVal where
  | int (n : Int)
  | str (s : String)
  | other (typeName : String)
deriving DecidableEq, Repr

/-- Python type name of a `PyVal`, as interpolated into error
messages. -/
def pyTypeName : PyVal → String
  | .int _ => "int"
  | .str _ => "str"
  | .other typeName => typeName

/-- The `isinstance(max_workers, int)` check opening `base_scraper.run`
(lines 204-205): any integer passes, any non-integer raises
`ValueError`.  This is the entirety of the validation: no bound on the
value is checked. -/
def validateMaxWorkers : PyVal → Except String Unit
  | .int _ => .ok ()
  | v => .error ("ValueError: max_worker is of type " ++ pyTypeName v ++ ". Should be Int.")

/-- Embedding of `base_scraper.run` (lines 203-217): validate that
`max_workers` is an integer (lines 204-205), then run `query_urls`
directly on the full sequence when it equals 1 (lines 207-208) and
`query_urls_parallel` otherwise (lines 209-210).  The JSON dump and the
assignment to `self.results` (lines 214-217) are I/O/state sinks of the
returned dict and are not modelled. -/
def run (f : String → Outcome α) (nmaxtimeouts : Nat) (identifiers : List String) :
    PyVal → Except String (List (String × α))
  | .int n =>
      if n = 1 then query_urls f nmaxtimeouts identifiers
      else query_urls_parallel f nmaxtimeouts identifiers n
  | v => .error ("ValueError: max_worker is of type " ++ pyTypeName v ++ ". Should be Int.")

/-- Number of plain substitution slots (the two-character sequence
brace-open brace-close) in a template string, counted over its
characters. -/
def slotCountAux : List Char → Nat
  | [] => 0
  | [_] => 0
  | c1 :: c2 :: rest2 =>
      if c1 = '\x7b' ∧ c2 = '\x7d' then 1 + slotCountAux rest2
      else slotCountAux (c2 :: rest2)

/-- Number of substitution slots of a template string. -/
def countSlots (template : String) : Nat :=
  slotCountAux template.data

/-- Substitute the argument for each slot in the template characters. -/
def formatChars (arg : String) : List Char → List Char
  | [] => []
  | [c1] => [c1]
  | c1 :: c2 :: rest2 =>
      if c1 = '\x7b' ∧ c2 = '\x7d' then arg.data ++ formatChars arg rest2
      else c1 :: formatChars arg (c2 :: rest2)

/-- Modelling Python `template.format(identifier)` as called by
`construct_urls` (line 91) for templates made of literal text and plain
slots: with zero slots the argument is ignored, with one slot it is
substituted, and with two or more slots `str.format` raises
`IndexError` because only one positional argument is supplied. -/
def pyFormat (template arg : String) : Except String String :=
  if countSlots template ≤ 1 then .ok (String.mk (formatChars arg template.data))
  else .error "IndexError: Replacement index 1 out of range for positional args tuple"

/-- The validation and URL-construction part of `base_scraper.__init__`
(lines 30-48): check that `url_re` is a `str` (lines 40-41,
`TypeError`), then that `keyword` is a `str` (lines 42-43), then build
the identifier-to-URL dict `identifiers_urls` by formatting the
template with each identifier (lines 47-48).  The stored paths, flags
and sleep/budget options are irrelevant to construction-time errors and
omitted; no network call occurs anywhere in the constructor. -/
def base_scraper_init (keyword url_re : PyVal) (identifiers : List String) :
    Except String (List (String × String)) :=
  match url_re with
  | .str template =>
      match keyword with
      | .str _ => identifiers.mapM (fun i => (pyFormat template i).map (fun u => (i, u)))
      | _ => .error "TypeError: keyword must be a str. Give it a name that specifies "
  | _ => .error "TypeError: url_re must be a str template consisting of an url with variable input"

/-- One row of the table built by `into_DataFrame` (line 187): columns
`Id`, `Charger_type`, `Available`, `Total`, `timestamp`. -/
structure Row (β : Type) where
  id : String
  charger_type : Option String
  available : Option β
  total : Option β
  timestamp : β
deriving DecidableEq, Repr

/-- Loop of `into_DataFrame` over `self.charger_ids` (lines 179-185),
carrying the rows built so far and the last value assigned to the
Python local `datestamp_` (`none` while it is still unassigned).  A
present identifier contributes one row per sub-type of its value dict
and rebinds `datestamp_` on every sub-type; a missing identifier
(`KeyError`, line 184) contributes a row whose charger type,
availability and total are `None` but whose timestamp is the stale
`datestamp_` (line 185) - and raises `NameError` when `datestamp_` has
never been assigned. -/
def into_DataFrame_aux (avail_dict : List (String × List (String × (β × β × β)))) :
    List String → Option β → List (Row β) → Except String (List (Row β))
  | [], _, rows => .ok rows
  | id :: rest, datestamp?, rows =>
    match dlookup id avail_dict with
    | some subtypes =>
        into_DataFrame_aux avail_dict rest
          (match subtypes.getLast? with
            | some p => some p.2.2.2
            | none => datestamp?)
          (rows ++ subtypes.map (fun p => Row.mk id (some p.1) (some p.2.1) (some p.2.2.1) p.2.2.2))
    | none =>
        match datestamp? with
        | some d =>
            into_DataFrame_aux avail_dict rest (some d) (rows ++ [Row.mk id none none none d])
        | none => .error "NameError: name datestamp_ is not defined"

/-- Embedding of `base_scraper.into_DataFrame` (lines 166-187): merge
the given list of result dicts into `avail_dict` (lines 168-170) and
build the row lists over `charger_ids` (lines 172-187).  Each dict
value is itself a dict from sub-type to an
(availability, total, datestamp) triple, unpacked on line 182. -/
def into_DataFrame (charger_ids : List String)
    (avail_list_of_dicts : List (List (String × List (String × (β × β × β))))) :
    Except String (List (Row β)) :=
  into_DataFrame_aux (mergeAll avail_list_of_dicts) charger_ids none []


/-- Witness oracle for C1: every fetch succeeds, payload 10 times the
identifier length. -/
def wfP : String → Outcome Nat := fun i => .success (10 * i.length)

section PartitionLemmas

/-- Chunking produces one chunk per requested size. -/
theorem length_takeChunks (l : List α) (ss : List Nat) :
    (takeChunks l ss).length = ss.length := by
  induction ss generalizing l with
  | nil => rfl
  | cons s ss ih => simp [takeChunks, ih]

/-- Concatenating the chunks gives back the prefix of the list covered
by the sizes. -/
theorem join_takeChunks (ss : List Nat) : ∀ l : List α,
    (takeChunks l ss).flatten = l.take ss.sum := by
  induction ss with
  | nil => intro l; simp [takeChunks]
  | cons s ss ih =>
      intro l
      simp only [takeChunks, List.flatten_cons, ih, List.sum_cons, List.take_add]

/-- Sum of `m` values that are `a + 1` below the threshold `k` and `a`
from there on. -/
theorem sum_range_ite (a k : Nat) : ∀ m : Nat,
    ((List.range m).map (fun i => if i < k then a + 1 else a)).sum = m * a + min k m := by
  intro m
  induction m with
  | zero => simp
  | succ m ih =>
      rw [List.range_succ, List.map_append, List.sum_append, ih]
      rcases Nat.lt_or_ge m k with h | h
      · simp only [List.map_cons, List.map_nil, if_pos h]
        have h1 : min k m = m := Nat.min_eq_right (Nat.le_of_lt h)
        have h2 : min k (m + 1) = m + 1 := Nat.min_eq_right h
        rw [h1, h2]; simp only [List.sum_cons, List.sum_nil]; ring
      · simp only [List.map_cons, List.map_nil, if_neg (Nat.not_lt.mpr h)]
        have h1 : min k m = k := Nat.min_eq_left h
        have h2 : min k (m + 1) = k := Nat.min_eq_left (Nat.le_succ_of_le h)
        rw [h1, h2]; simp only [List.sum_cons, List.sum_nil]; ring

/-- The `numpy.array_split` shard sizes add up to the array length. -/
theorem sum_splitSizes (n w : Nat) (hw : 0 < w) : (splitSizes n w).sum = n := by
  have h := sum_range_ite (n / w) (n % w) w
  have hlt : n % w < w := Nat.mod_lt n hw
  rw [splitSizes, h, Nat.min_eq_left (Nat.le_of_lt hlt)]
  have := Nat.div_add_mod n w
  omega

/-- There are exactly `w` shard sizes. -/
theorem length_splitSizes (n w : Nat) : (splitSizes n w).length = w := by
  simp [splitSizes]

/-- Every `numpy.array_split` shard size is `n / w` or `n / w + 1`. -/
theorem mem_splitSizes (n w s : Nat) (h : s ∈ splitSizes n w) :
    s = n / w ∨ s = n / w + 1 := by
  simp only [splitSizes, List.mem_map, List.mem_range] at h
  obtain ⟨i, _, hi⟩ := h
  by_cases hc : i < n % w
  · right; rw [← hi, if_pos hc]
  · left; rw [← hi, if_neg hc]

/-- When the sizes are covered by the list, each chunk has exactly its
requested size. -/
theorem map_length_takeChunks (ss : List Nat) : ∀ l : List α, ss.sum ≤ l.length →
    (takeChunks l ss).map List.length = ss := by
  induction ss with
  | nil => intro l _; rfl
  | cons s ss ih =>
      intro l h
      simp only [List.sum_cons] at h
      have hs : s ≤ l.length := le_trans (Nat.le_add_right s ss.sum) h
      have hdrop : ss.sum ≤ (l.drop s).length := by
        rw [List.length_drop]; omega
      simp only [takeChunks, List.map_cons, ih (l.drop s) hdrop,
        List.length_take, Nat.min_eq_left hs]

/-- Every shard of `arraySplit l w` (for `w > 0`) has length `n / w` or
`n / w + 1` where `n = l.length`. -/
theorem length_of_mem_arraySplit (l : List α) (w : Nat) (hw : 0 < w)
    (s : List α) (hs : s ∈ arraySplit l w) :
    s.length = l.length / w ∨ s.length = l.length / w + 1 := by
  have hsum : (splitSizes l.length w).sum ≤ l.length := by
    rw [sum_splitSizes l.length w hw]
  have hmap := map_length_takeChunks (splitSizes l.length w) l hsum
  have : s.length ∈ splitSizes l.length w := by
    rw [← hmap]
    exact List.mem_map_of_mem List.length hs
  exact mem_splitSizes _ _ _ this

/-- Concatenation of the `arraySplit` shards reproduces the original
list, for any positive worker count. -/
theorem join_arraySplit (l : List α) (w : Nat) (hw : 0 < w) :
    (arraySplit l w).flatten = l := by
  rw [arraySplit, join_takeChunks, sum_splitSizes l.length w hw, List.take_length]

/-- Any element of a shard is an element of the original list. -/
theorem mem_of_mem_arraySplit (l : List α) (w : Nat) (hw : 0 < w)
    (s : List α) (hs : s ∈ arraySplit l w) (x : α) (hx : x ∈ s) : x ∈ l := by
  have := join_arraySplit l w hw
  rw [← this]
  exact List.mem_flatten_of_mem hs hx

end PartitionLemmas

/-- C2: for every identifier sequence of size `N` and worker count `W`
with `1 ≤ W ≤ N`, the partitioning step (`numpy.array_split` on
line 156) produces exactly `W` contiguous shards whose sizes pairwise
differ by at most 1, and the concatenation of the shards in shard order
equals the original sequence exactly. -/
theorem partition_shards_balanced_and_exact (identifiers : List String) (w : Nat)
    (h1 : 1 ≤ w) (h2 : w ≤ identifiers.length) :
    (arraySplit identifiers w).length = w ∧
    (∀ s1 ∈ arraySplit identifiers w, ∀ s2 ∈ arraySplit identifiers w,
      s1.length ≤ s2.length + 1) ∧
    (arraySplit identifiers w).flatten = identifiers := by
  refine ⟨?_, ?_, join_arraySplit identifiers w h1⟩
  · rw [arraySplit, length_takeChunks, length_splitSizes]
  · intro s1 hs1 s2 hs2
    rcases length_of_mem_arraySplit identifiers w h1 s1 hs1 with h | h <;>
      rcases length_of_mem_arraySplit identifiers w h1 s2 hs2 with h' | h' <;>
        omega

/-- Witness for C2 at a concrete input: five identifiers, two workers. -/
theorem partition_shards_balanced_and_exact_witness :
    (arraySplit ["a", "b", "c", "d", "e"] 2).length = 2 ∧
    (∀ s1 ∈ arraySplit ["a", "b", "c", "d", "e"] 2,
      ∀ s2 ∈ arraySplit ["a", "b", "c", "d", "e"] 2, s1.length ≤ s2.length + 1) ∧
    (arraySplit ["a", "b", "c", "d", "e"] 2).flatten = ["a", "b", "c", "d", "e"] :=
  partition_shards_balanced_and_exact ["a", "b", "c", "d", "e"] 2
    (by decide) (by decide)


section BatchRunnerLemmas

theorem dlookup_dinsert (k k1 : String) (v : α) (m : List (String × α)) :
    dlookup k (dinsert k1 v m) = if k1 = k then some v else dlookup k m := by
  induction m with
  | nil => simp only [dinsert, dlookup]
  | cons p rest ih =>
      obtain ⟨k2, v2⟩ := p
      simp only [dinsert]
      by_cases h2 : k2 = k1
      · rw [if_pos h2]
        by_cases h3 : k1 = k
        · simp only [dlookup, if_pos h3, if_pos (h2.trans h3)]
        · have h4 : ¬ k2 = k := fun h => h3 (h2.symm.trans h)
          simp only [dlookup, if_neg h3, if_neg h4]
      · rw [if_neg h2]
        by_cases h3 : k2 = k
        · have h4 : ¬ k1 = k := fun h => h2 (h3.trans h.symm)
          simp only [dlookup, if_pos h3, if_neg h4]
        · simp only [dlookup, if_neg h3, ih]

theorem dlookup_accSucc_of_not_mem (f : String → Outcome α) (l : List String)
    (k : String) (hk : k ∉ l) : ∀ acc, dlookup k (accSucc f l acc) = dlookup k acc := by
  induction l with
  | nil => intro acc; rfl
  | cons i rest ih =>
      intro acc
      have hik : ¬ i = k := fun h => hk (List.mem_cons.mpr (Or.inl h.symm))
      have hkrest : k ∉ rest := fun h => hk (List.mem_cons_of_mem i h)
      cases hfi : f i with
      | success p =>
          rw [accSucc, hfi]
          rw [ih hkrest, dlookup_dinsert, if_neg hik]
      | timeout => rw [accSucc, hfi]; exact ih hkrest _
      | otherFailure d => rw [accSucc, hfi]; exact ih hkrest _
      | fatal d => rw [accSucc, hfi]; exact ih hkrest _

theorem dlookup_accSucc_of_success (f : String → Outcome α) (l : List String)
    (k : String) (p : α) (hk : k ∈ l) (hf : f k = .success p) :
    ∀ acc, dlookup k (accSucc f l acc) = some p := by
  induction l with
  | nil => cases hk
  | cons i rest ih =>
      intro acc
      by_cases hmem : k ∈ rest
      · cases hfi : f i with
        | success q => rw [accSucc, hfi]; exact ih hmem _
        | timeout => rw [accSucc, hfi]; exact ih hmem _
        | otherFailure d => rw [accSucc, hfi]; exact ih hmem _
        | fatal d => rw [accSucc, hfi]; exact ih hmem _
      · have hki : k = i := by
          rcases List.mem_cons.mp hk with h | h
          · exact h
          · exact absurd h hmem
        subst hki
        rw [accSucc, hf, dlookup_accSucc_of_not_mem f rest k hmem,
          dlookup_dinsert, if_pos rfl]

theorem dlookup_accSucc_of_not_success (f : String → Outcome α) (l : List String)
    (k : String) (hf : ∀ p : α, f k ≠ .success p) :
    ∀ acc, dlookup k (accSucc f l acc) = dlookup k acc := by
  induction l with
  | nil => intro acc; rfl
  | cons i rest ih =>
      intro acc
      by_cases hki : k = i
      · subst hki
        cases hfi : f k with
        | success p => exact absurd hfi (hf p)
        | timeout => rw [accSucc, hfi]; exact ih _
        | otherFailure d => rw [accSucc, hfi]; exact ih _
        | fatal d => rw [accSucc, hfi]; exact ih _
      · have hik : ¬ i = k := fun h => hki h.symm
        cases hfi : f i with
        | success p =>
            rw [accSucc, hfi, ih, dlookup_dinsert, if_neg hik]
        | timeout => rw [accSucc, hfi]; exact ih _
        | otherFailure d => rw [accSucc, hfi]; exact ih _
        | fatal d => rw [accSucc, hfi]; exact ih _

/-- An entry of `dinsert` is the inserted pair or an entry of the
original list. -/
theorem mem_dinsert (k k1 : String) (v v1 : α) (m : List (String × α))
    (h : (k, v) ∈ dinsert k1 v1 m) : (k = k1 ∧ v = v1) ∨ (k, v) ∈ m := by
  induction m with
  | nil =>
      simp only [dinsert, List.mem_singleton] at h
      exact Or.inl ⟨congrArg Prod.fst h, congrArg Prod.snd h⟩
  | cons q qrest ih =>
      obtain ⟨k2, v2⟩ := q
      simp only [dinsert] at h
      by_cases h2 : k2 = k1
      · rw [if_pos h2] at h
        rcases List.mem_cons.mp h with h | h
        · exact Or.inl ⟨congrArg Prod.fst h, congrArg Prod.snd h⟩
        · exact Or.inr (List.mem_cons_of_mem _ h)
      · rw [if_neg h2] at h
        rcases List.mem_cons.mp h with h | h
        · exact Or.inr (h ▸ List.mem_cons_self _ _)
        · rcases ih h with h | h
          · exact Or.inl h
          · exact Or.inr (List.mem_cons_of_mem _ h)

/-- Entries of the accumulated dict originate in the accumulator or in a
successful fetch of a run identifier. -/
theorem mem_accSucc (f : String → Outcome α) (l : List String) (k : String) (v : α) :
    ∀ acc, (k, v) ∈ accSucc f l acc →
      (k, v) ∈ acc ∨ (k ∈ l ∧ f k = .success v) := by
  induction l with
  | nil => intro acc h; exact Or.inl h
  | cons i rest ih =>
      intro acc h
      have step : (k, v) ∈ acc ∨ (k ∈ rest ∧ f k = .success v) →
          ((k, v) ∈ acc ∨ (k ∈ i :: rest ∧ f k = .success v)) := by
        intro hc
        rcases hc with hc | ⟨h1, h2⟩
        · exact Or.inl hc
        · exact Or.inr ⟨List.mem_cons_of_mem i h1, h2⟩
      cases hfi : f i with
      | success p =>
          rw [accSucc, hfi] at h
          rcases ih (dinsert i p acc) h with hc | hc
          · rcases mem_dinsert k i v p acc hc with ⟨hk, hv⟩ | hm
            · subst hk; subst hv
              exact Or.inr ⟨List.mem_cons_self _ _, hfi⟩
            · exact Or.inl hm
          · exact Or.inr ⟨List.mem_cons_of_mem i hc.1, hc.2⟩
      | timeout =>
          rw [accSucc, hfi] at h
          exact step (ih acc h)
      | otherFailure d =>
          rw [accSucc, hfi] at h
          exact step (ih acc h)
      | fatal d =>
          rw [accSucc, hfi] at h
          exact step (ih acc h)

/-- A found entry is a member of the association list. -/
theorem mem_of_dlookup (k : String) (v : α) (m : List (String × α))
    (h : dlookup k m = some v) : (k, v) ∈ m := by
  induction m with
  | nil => cases h
  | cons p rest ih =>
      obtain ⟨k1, v1⟩ := p
      simp only [dlookup] at h
      by_cases h1 : k1 = k
      · rw [if_pos h1] at h
        have hv : v1 = v := Option.some.inj h
        subst h1; subst hv
        exact List.mem_cons_self _ _
      · rw [if_neg h1] at h
        exact List.mem_cons_of_mem _ (ih h)

/-- An absent key has no entry. -/
theorem not_mem_of_dlookup_eq_none (k : String) (m : List (String × α))
    (h : dlookup k m = none) : ∀ v : α, (k, v) ∉ m := by
  induction m with
  | nil => intro v hv; cases hv
  | cons p rest ih =>
      obtain ⟨k1, v1⟩ := p
      simp only [dlookup] at h
      by_cases h1 : k1 = k
      · rw [if_pos h1] at h
        cases h
      · rw [if_neg h1] at h
        intro v hv
        rcases List.mem_cons.mp hv with hv | hv
        · exact h1 (congrArg Prod.fst hv).symm
        · exact ih h v hv

/-- No-halt unrolling of the `query_urls` loop for a run whose failures
are all timeouts and keep the counter within the budget: the loop
traverses the whole run, grows the counter by the number of timeouts,
accumulates the successes and continues. -/
theorem query_urls_aux_timeout_run (f : String → Outcome α) (nmaxtimeouts : Nat)
    (l : List String)
    (hkinds : ∀ i ∈ l, (f i).isSuccess = true ∨ (f i).isTimeout = true) :
    ∀ rest nt acc, nt + countT f l ≤ nmaxtimeouts →
      query_urls_aux f nmaxtimeouts (l ++ rest) nt acc =
        query_urls_aux f nmaxtimeouts rest (nt + countT f l) (accSucc f l acc) := by
  induction l with
  | nil => intro rest nt acc _; simp [countT, accSucc]
  | cons i ltail ih =>
      intro rest nt acc hbudget
      have hi := hkinds i (List.mem_cons_self i ltail)
      have htail : ∀ j ∈ ltail, (f j).isSuccess = true ∨ (f j).isTimeout = true :=
        fun j hj => hkinds j (List.mem_cons_of_mem i hj)
      rw [List.cons_append]
      cases hfi : f i with
      | success p =>
          have h1 : countT f (i :: ltail) = countT f ltail := by
            simp [countT, List.countP_cons, hfi, Outcome.isTimeout]
          have h2 : accSucc f (i :: ltail) acc = accSucc f ltail (dinsert i p acc) := by
            rw [accSucc, hfi]
          rw [h1] at hbudget
          rw [query_urls_aux, hfi, h1, h2]
          exact ih htail rest nt (dinsert i p acc) hbudget
      | timeout =>
          have h1 : countT f (i :: ltail) = countT f ltail + 1 := by
            simp [countT, List.countP_cons, hfi, Outcome.isTimeout]
          have h2 : accSucc f (i :: ltail) acc = accSucc f ltail acc := by
            rw [accSucc, hfi]
          rw [h1] at hbudget
          have hnohalt : ¬ nt + 1 > nmaxtimeouts := by omega
          rw [query_urls_aux, hfi]
          simp only [if_neg hnohalt]
          rw [ih htail rest (nt + 1) acc (by omega), h1, h2]
          have h3 : nt + 1 + countT f ltail = nt + (countT f ltail + 1) := by omega
          rw [h3]
      | otherFailure d =>
          rw [hfi] at hi
          simp [Outcome.isSuccess, Outcome.isTimeout] at hi
      | fatal d =>
          rw [hfi] at hi
          simp [Outcome.isSuccess, Outcome.isTimeout] at hi

/-- No-halt unrolling of the `query_urls` loop for a run with no fatal
fetch whose failure count keeps the counter strictly below the budget:
neither failure kind can halt, so the loop traverses the whole run. -/
theorem query_urls_aux_under_budget (f : String → Outcome α) (nmaxtimeouts : Nat)
    (l : List String) (hnf : ∀ i ∈ l, (f i).isFatal = false) :
    ∀ rest nt acc, nt + countF f l < nmaxtimeouts →
      query_urls_aux f nmaxtimeouts (l ++ rest) nt acc =
        query_urls_aux f nmaxtimeouts rest (nt + countF f l) (accSucc f l acc) := by
  induction l with
  | nil => intro rest nt acc _; simp [countF, accSucc]
  | cons i ltail ih =>
      intro rest nt acc hbudget
      have hi := hnf i (List.mem_cons_self i ltail)
      have htail : ∀ j ∈ ltail, (f j).isFatal = false :=
        fun j hj => hnf j (List.mem_cons_of_mem i hj)
      rw [List.cons_append]
      cases hfi : f i with
      | success p =>
          have h1 : countF f (i :: ltail) = countF f ltail := by
            simp [countF, List.countP_cons, hfi, Outcome.isSuccess]
          have h2 : accSucc f (i :: ltail) acc = accSucc f ltail (dinsert i p acc) := by
            rw [accSucc, hfi]
          rw [h1] at hbudget
          rw [query_urls_aux, hfi, h1, h2]
          exact ih htail rest nt (dinsert i p acc) hbudget
      | timeout =>
          have h1 : countF f (i :: ltail) = countF f ltail + 1 := by
            simp [countF, List.countP_cons, hfi, Outcome.isSuccess]
          have h2 : accSucc f (i :: ltail) acc = accSucc f ltail acc := by
            rw [accSucc, hfi]
          rw [h1] at hbudget
          have hnohalt : ¬ nt + 1 > nmaxtimeouts := by omega
          rw [query_urls_aux, hfi]
          simp only [if_neg hnohalt]
          rw [ih htail rest (nt + 1) acc (by omega), h1, h2]
          have h3 : nt + 1 + countF f ltail = nt + (countF f ltail + 1) := by omega
          rw [h3]
      | otherFailure d =>
          have h1 : countF f (i :: ltail) = countF f ltail + 1 := by
            simp [countF, List.countP_cons, hfi, Outcome.isSuccess]
          have h2 : accSucc f (i :: ltail) acc = accSucc f ltail acc := by
            rw [accSucc, hfi]
          rw [h1] at hbudget
          have hnohalt : ¬ nt + 1 ≥ nmaxtimeouts := by omega
          rw [query_urls_aux, hfi]
          simp only [if_neg hnohalt]
          rw [ih htail rest (nt + 1) acc (by omega), h1, h2]
          have h3 : nt + 1 + countF f ltail = nt + (countF f ltail + 1) := by omega
          rw [h3]
      | fatal d =>
          rw [hfi] at hi
          simp [Outcome.isFatal] at hi

end BatchRunnerLemmas

section BatchRunnerClaims

/-- All-success runs contain no timeouts. -/
theorem countT_eq_zero (f : String → Outcome α) (l : List String)
    (h : ∀ i ∈ l, (f i).isSuccess = true) : countT f l = 0 := by
  rw [countT, List.countP_eq_zero]
  intro i hi
  have hs := h i hi
  cases hfi : f i with
  | success p => simp [Outcome.isTimeout]
  | timeout => rw [hfi] at hs; simp [Outcome.isSuccess] at hs
  | otherFailure d => simp [Outcome.isTimeout]
  | fatal d => simp [Outcome.isTimeout]

/-- Inserting a fresh key appends the pair at the end of the dict. -/
theorem dinsert_of_dlookup_eq_none (k1 : String) (v : α) (m : List (String × α))
    (h : dlookup k1 m = none) : dinsert k1 v m = m ++ [(k1, v)] := by
  induction m with
  | nil => rfl
  | cons p rest ih =>
      obtain ⟨k2, v2⟩ := p
      simp only [dlookup] at h
      by_cases h2 : k2 = k1
      · rw [if_pos h2] at h; cases h
      · rw [if_neg h2] at h
        simp only [dinsert, if_neg h2, List.cons_append, ih h]

/-- Over distinct identifiers whose fetches all succeed, the accumulated
dict is the accumulator followed by one entry per identifier in input
order. -/
theorem accSucc_eq_append_map (f : String → Outcome α) (payload : String → α)
    (l : List String) (hall : ∀ i ∈ l, f i = .success (payload i)) (hnd : l.Nodup) :
    ∀ acc, (∀ i ∈ l, dlookup i acc = none) →
      accSucc f l acc = acc ++ l.map (fun i => (i, payload i)) := by
  induction l with
  | nil => intro acc _; simp [accSucc]
  | cons i rest ih =>
      intro acc hfresh
      have hi := hall i (List.mem_cons_self i rest)
      have hacc : dlookup i acc = none := hfresh i (List.mem_cons_self i rest)
      have hndr := (List.nodup_cons.mp hnd).2
      have hnmem := (List.nodup_cons.mp hnd).1
      have htail : ∀ j ∈ rest, f j = .success (payload j) :=
        fun j hj => hall j (List.mem_cons_of_mem i hj)
      have hfresh2 : ∀ j ∈ rest, dlookup j (dinsert i (payload i) acc) = none := by
        intro j hj
        rw [dlookup_dinsert]
        have hij : ¬ i = j := fun h => hnmem (h ▸ hj)
        rw [if_neg hij]
        exact hfresh j (List.mem_cons_of_mem i hj)
      have hstep : accSucc f (i :: rest) acc = accSucc f rest (dinsert i (payload i) acc) := by
        rw [accSucc, hi]
      rw [hstep, ih htail hndr (dinsert i (payload i) acc) hfresh2,
        dinsert_of_dlookup_eq_none i (payload i) acc hacc]
      simp

/-- First entry of the identity-shaped map for a member identifier. -/
theorem dlookup_map_pair (payload : String → α) (l : List String) (i : String)
    (hi : i ∈ l) : dlookup i (l.map (fun j => (j, payload j))) = some (payload i) := by
  induction l with
  | nil => cases hi
  | cons j rest ih =>
      by_cases hij : j = i
      · subst hij
        simp [dlookup]
      · have hmem : i ∈ rest := by
          rcases List.mem_cons.mp hi with h | h
          · exact absurd h.symm hij
          · exact h
        simp only [List.map_cons, dlookup, if_neg hij]
        exact ih hmem

/-- Every entry of a normally-returned result dict of the `query_urls`
loop comes from the starting accumulator or from a successful fetch of a
loop identifier. -/
theorem mem_result_of_query_urls_aux (f : String → Outcome α) (nmaxtimeouts : Nat) :
    ∀ (l : List String) (nt : Nat) (acc r : List (String × α)),
      query_urls_aux f nmaxtimeouts l nt acc = .ok r →
      ∀ k v, (k, v) ∈ r → (k, v) ∈ acc ∨ (k ∈ l ∧ f k = .success v) := by
  intro l
  induction l with
  | nil =>
      intro nt acc r h k v hm
      rw [query_urls_aux] at h
      cases h
      exact Or.inl hm
  | cons i rest ih =>
      intro nt acc r h k v hm
      have step : (k, v) ∈ acc ∨ (k ∈ rest ∧ f k = .success v) →
          (k, v) ∈ acc ∨ (k ∈ i :: rest ∧ f k = .success v) := by
        intro hc
        rcases hc with hc | ⟨h1, h2⟩
        · exact Or.inl hc
        · exact Or.inr ⟨List.mem_cons_of_mem i h1, h2⟩
      rw [query_urls_aux] at h
      cases hfi : f i with
      | success p =>
          rw [hfi] at h
          rcases ih nt (dinsert i p acc) r h k v hm with hc | hc
          · rcases mem_dinsert k i v p acc hc with ⟨hk, hv⟩ | hmm
            · subst hk; subst hv
              exact Or.inr ⟨List.mem_cons_self _ _, hfi⟩
            · exact Or.inl hmm
          · exact Or.inr ⟨List.mem_cons_of_mem i hc.1, hc.2⟩
      | timeout =>
          rw [hfi] at h
          by_cases hhalt : nt + 1 > nmaxtimeouts
          · rw [if_pos hhalt] at h
            cases h
            exact Or.inl hm
          · rw [if_neg hhalt] at h
            exact step (ih (nt + 1) acc r h k v hm)
      | otherFailure d =>
          rw [hfi] at h
          by_cases hhalt : nt + 1 ≥ nmaxtimeouts
          · rw [if_pos hhalt] at h
            cases h
            exact Or.inl hm
          · rw [if_neg hhalt] at h
            exact step (ih (nt + 1) acc r h k v hm)
      | fatal d =>
          rw [hfi] at h
          cases h

/-- Absent any fetch outside the transport taxonomy, the `query_urls`
loop always returns a result dict normally. -/
theorem query_urls_aux_ok_of_no_fatal (f : String → Outcome α) (nmaxtimeouts : Nat) :
    ∀ (l : List String) (nt : Nat) (acc : List (String × α)),
      (∀ i ∈ l, (f i).isFatal = false) →
      ∃ r, query_urls_aux f nmaxtimeouts l nt acc = .ok r := by
  intro l
  induction l with
  | nil => intro nt acc _; exact ⟨acc, rfl⟩
  | cons i rest ih =>
      intro nt acc hnf
      have hi := hnf i (List.mem_cons_self i rest)
      have htail : ∀ j ∈ rest, (f j).isFatal = false :=
        fun j hj => hnf j (List.mem_cons_of_mem i hj)
      rw [query_urls_aux]
      cases hfi : f i with
      | success p => exact ih nt (dinsert i p acc) htail
      | timeout =>
          by_cases hhalt : nt + 1 > nmaxtimeouts
          · rw [if_pos hhalt]; exact ⟨acc, rfl⟩
          · rw [if_neg hhalt]; exact ih (nt + 1) acc htail
      | otherFailure d =>
          by_cases hhalt : nt + 1 ≥ nmaxtimeouts
          · rw [if_pos hhalt]; exact ⟨acc, rfl⟩
          · rw [if_neg hhalt]; exact ih (nt + 1) acc htail
      | fatal d =>
          rw [hfi] at hi
          simp [Outcome.isFatal] at hi

end BatchRunnerClaims

/-- C3: in a shard whose fetches succeed or time out, the first
`nmaxtimeouts` timeouts each leave their identifier absent while the
run continues through the whole prefix, and the `(nmaxtimeouts + 1)`-th
timeout (counter strictly exceeding the budget, line 128) halts the
shard at once: the run over `pre ++ t :: post` returns exactly the dict
accumulated over `pre`, every timed-out identifier is absent from it,
and every identifier of `post` outside `pre` is never attempted and
absent from it. -/
theorem timeout_strict_halt (f : String → Outcome α) (nmaxtimeouts : Nat)
    (pre post : List String) (t : String)
    (hkinds : ∀ i ∈ pre, (f i).isSuccess = true ∨ (f i).isTimeout = true)
    (hcount : countT f pre = nmaxtimeouts)
    (ht : f t = .timeout) :
    query_urls f nmaxtimeouts pre = .ok (accSucc f pre []) ∧
    query_urls f nmaxtimeouts (pre ++ t :: post) = .ok (accSucc f pre []) ∧
    (∀ k ∈ pre, f k = .timeout → dlookup k (accSucc f pre []) = none) ∧
    (∀ k ∈ post, k ∉ pre → dlookup k (accSucc f pre []) = none) := by
  have hbudget : 0 + countT f pre ≤ nmaxtimeouts := by omega
  refine ⟨?_, ?_, ?_, ?_⟩
  · have h := query_urls_aux_timeout_run f nmaxtimeouts pre hkinds [] 0 [] hbudget
    rw [List.append_nil] at h
    rw [query_urls, h, query_urls_aux]
  · have h := query_urls_aux_timeout_run f nmaxtimeouts pre hkinds (t :: post) 0 [] hbudget
    rw [query_urls, h, query_urls_aux, ht, hcount]
    rw [if_pos (by omega)]
  · intro k _ hk
    have hns : ∀ p : α, f k ≠ .success p := by
      intro p hp; rw [hk] at hp; cases hp
    rw [dlookup_accSucc_of_not_success f pre k hns []]
    rfl
  · intro k _ hk
    rw [dlookup_accSucc_of_not_mem f pre k hk []]
    rfl

/-- Witness for C3: budget 1, one timeout tolerated in the prefix, the
second timeout halts before the successful identifier `"c"`. -/
theorem timeout_strict_halt_witness :
    query_urls wfT 1 (["a"] ++ "b" :: ["c"]) = .ok (accSucc wfT ["a"] []) ∧
    dlookup "c" (accSucc wfT ["a"] []) = none :=
  have h := timeout_strict_halt wfT 1 ["a"] ["c"] "b"
    (by decide) (by decide) (by decide)
  ⟨h.2.1, h.2.2.2 "c" (by decide) (by decide)⟩

/-- C4: a generic (non-timeout) transport failure increments the same
single counter as timeouts, and `query_urls` halts as soon as that
counter reaches the budget (line 137, `>=`): with `countF f pre + 1 =
nmaxtimeouts` failures of either kind in the prefix, a generic failure
next halts the shard immediately (returning only the prefix
accumulation, identifiers of `post` outside `pre` absent), whereas a
timeout in the same position would be tolerated and the loop would
continue into `post` — one failure later. -/
theorem other_failure_geq_halt (f : String → Outcome α) (nmaxtimeouts : Nat)
    (pre post : List String) (g : String)
    (hnf : ∀ i ∈ pre, (f i).isFatal = false)
    (hcount : countF f pre + 1 = nmaxtimeouts) :
    (∀ d, f g = .otherFailure d →
      query_urls f nmaxtimeouts (pre ++ g :: post) = .ok (accSucc f pre []) ∧
      (∀ k ∈ post, k ∉ pre → dlookup k (accSucc f pre []) = none)) ∧
    (f g = .timeout →
      query_urls f nmaxtimeouts (pre ++ g :: post) =
        query_urls_aux f nmaxtimeouts post nmaxtimeouts (accSucc f pre [])) := by
  have hbudget : 0 + countF f pre < nmaxtimeouts := by omega
  have h := query_urls_aux_under_budget f nmaxtimeouts pre hnf (g :: post) 0 [] hbudget
  constructor
  · intro d hg
    constructor
    · have hge : 0 + countF f pre + 1 ≥ nmaxtimeouts := by omega
      have hstep : query_urls_aux f nmaxtimeouts (g :: post) (0 + countF f pre)
          (accSucc f pre []) = .ok (accSucc f pre []) := by
        simp only [query_urls_aux, hg]
        rw [if_pos hge]
      rw [query_urls, h, hstep]
    · intro k _ hk
      rw [dlookup_accSucc_of_not_mem f pre k hk []]
      rfl
  · intro hg
    have hlt : ¬ 0 + countF f pre + 1 > nmaxtimeouts := by omega
    have hstep : query_urls_aux f nmaxtimeouts (g :: post) (0 + countF f pre)
        (accSucc f pre []) =
        query_urls_aux f nmaxtimeouts post nmaxtimeouts (accSucc f pre []) := by
      simp only [query_urls_aux, hg]
      rw [if_neg hlt]
      have h2 : 0 + countF f pre + 1 = nmaxtimeouts := by omega
      rw [h2]
    rw [query_urls, h, hstep]

/-- Witness for C4: budget 2, one generic failure in the prefix, the
second (the budget-th) generic failure halts before `"c"`. -/
theorem other_failure_geq_halt_witness :
    query_urls wfG 2 (["a"] ++ "b" :: ["c"]) = .ok (accSucc wfG ["a"] []) ∧
    dlookup "c" (accSucc wfG ["a"] []) = none :=
  have h := other_failure_geq_halt wfG 2 ["a"] ["c"] "b" (by decide) (by decide)
  ⟨(h.1 "boom" (by decide)).1, (h.1 "boom" (by decide)).2 "c" (by decide) (by decide)⟩

/-- C5: over a sequence of distinct identifiers whose fetches all
succeed, `query_urls` returns a dict with exactly one entry per
identifier, in input order, each mapped to its fetch payload. -/
theorem all_success_complete_map (f : String → Outcome α) (payload : String → α)
    (nmaxtimeouts : Nat) (identifiers : List String)
    (hall : ∀ i ∈ identifiers, f i = .success (payload i))
    (hnd : identifiers.Nodup) :
    query_urls f nmaxtimeouts identifiers =
      .ok (identifiers.map (fun i => (i, payload i))) ∧
    (identifiers.map (fun i => (i, payload i))).length = identifiers.length ∧
    (∀ i ∈ identifiers,
      dlookup i (identifiers.map (fun j => (j, payload j))) = some (payload i)) := by
  have hkinds : ∀ i ∈ identifiers, (f i).isSuccess = true ∨ (f i).isTimeout = true := by
    intro i hi
    rw [hall i hi]
    exact Or.inl rfl
  have hzero : countT f identifiers = 0 := by
    apply countT_eq_zero
    intro i hi
    rw [hall i hi]
    rfl
  refine ⟨?_, List.length_map _ _, fun i hi => dlookup_map_pair payload identifiers i hi⟩
  have h := query_urls_aux_timeout_run f nmaxtimeouts identifiers hkinds [] 0 []
    (by omega)
  rw [List.append_nil] at h
  rw [query_urls, h, query_urls_aux,
    accSucc_eq_append_map f payload identifiers hall hnd [] (fun i _ => rfl)]
  rw [List.nil_append]

/-- Witness for C5 on two identifiers. -/
theorem all_success_complete_map_witness :
    query_urls wfS 10 ["a", "b"] = .ok (["a", "b"].map (fun i => (i, i))) ∧
    (["a", "b"].map (fun i => (i, i))).length = (["a", "b"] : List String).length ∧
    (∀ i ∈ (["a", "b"] : List String),
      dlookup i (["a", "b"].map (fun j => (j, j))) = some i) :=
  all_success_complete_map wfS (fun i => i) 10 ["a", "b"] (by decide) (by decide)

/-- C6: a dict returned normally by `query_urls` has a key only for an
input identifier whose fetch succeeded, mapped to that fetch's payload;
any identifier whose fetch does not succeed (failed or never attempted)
is absent from it. -/
theorem result_map_only_successes (f : String → Outcome α) (nmaxtimeouts : Nat)
    (identifiers : List String) (r : List (String × α))
    (hok : query_urls f nmaxtimeouts identifiers = .ok r) :
    (∀ k v, dlookup k r = some v → k ∈ identifiers ∧ f k = .success v) ∧
    (∀ k, (∀ p : α, f k ≠ .success p) → dlookup k r = none) := by
  have hmain : ∀ k v, dlookup k r = some v → k ∈ identifiers ∧ f k = .success v := by
    intro k v hkv
    have hm := mem_of_dlookup k v r hkv
    rcases mem_result_of_query_urls_aux f nmaxtimeouts identifiers 0 [] r hok k v hm with
      hc | hc
    · cases hc
    · exact hc
  refine ⟨hmain, ?_⟩
  intro k hns
  cases hlk : dlookup k r with
  | none => rfl
  | some v => exact absurd (hmain k v hlk).2 (hns v)

/-- Witness for C6: the failed identifier `"b"` is absent, the
successful identifier `"a"` maps to its payload and nothing else does. -/
theorem result_map_only_successes_witness :
    dlookup "b" ([("a", 3)] : List (String × Nat)) = none ∧
    ("a" ∈ (["a", "b"] : List String) ∧ wfR "a" = .success 3) :=
  have h := result_map_only_successes wfR 5 ["a", "b"] [("a", 3)] rfl
  ⟨h.2 "b" (by intro p hp; simp [wfR] at hp), h.1 "a" 3 (by decide)⟩

/-- C7: exactly the transport taxonomy is caught by `query_urls`
(lines 124-141): if no fetch raises outside it, the loop always returns
a dict normally (timeouts and other transport failures are absorbed),
while the first fetch raising outside the taxonomy propagates uncaught
and terminates the run with that error. -/
theorem transport_taxonomy_caught_fatal_propagates (f : String → Outcome α)
    (nmaxtimeouts : Nat) :
    (∀ identifiers : List String, (∀ i ∈ identifiers, (f i).isFatal = false) →
      ∃ r, query_urls f nmaxtimeouts identifiers = .ok r) ∧
    (∀ (pre : List String) (x : String) (post : List String) (d : String),
      (∀ i ∈ pre, (f i).isSuccess = true) → f x = .fatal d →
      query_urls f nmaxtimeouts (pre ++ x :: post) = .error d) := by
  constructor
  · intro identifiers hnf
    exact query_urls_aux_ok_of_no_fatal f nmaxtimeouts identifiers 0 [] hnf
  · intro pre x post d hpre hx
    have hkinds : ∀ i ∈ pre, (f i).isSuccess = true ∨ (f i).isTimeout = true :=
      fun i hi => Or.inl (hpre i hi)
    have hzero : countT f pre = 0 := countT_eq_zero f pre hpre
    have h := query_urls_aux_timeout_run f nmaxtimeouts pre hkinds (x :: post) 0 []
      (by omega)
    rw [query_urls, h, query_urls_aux, hx]

/-- Witness for C7: a tolerated-only run returns normally; a fetch
outside the taxonomy terminates the run with its error. -/
theorem transport_taxonomy_caught_fatal_propagates_witness :
    (∃ r, query_urls wfF 5 ["a", "c"] = .ok r) ∧
    query_urls wfF 5 (["a"] ++ "b" :: ["c"]) = .error "JSONDecodeError" :=
  have h := transport_taxonomy_caught_fatal_propagates wfF 5
  ⟨h.1 ["a", "c"] (by decide), h.2 ["a"] "b" ["c"] "JSONDecodeError" (by decide) (by decide)⟩

section MergeLemmas

/-- Merging a dict with no entry for a key leaves that key's lookup
unchanged. -/
theorem dlookup_mergeOne_of_no_entry (k : String) (m : List (String × α))
    (h : ∀ v : α, (k, v) ∉ m) :
    ∀ acc, dlookup k (mergeOne acc m) = dlookup k acc := by
  induction m with
  | nil => intro acc; rfl
  | cons p rest ih =>
      intro acc
      obtain ⟨k1, v1⟩ := p
      have hk1 : ¬ k1 = k := by
        intro hk1
        exact h v1 (hk1 ▸ List.mem_cons_self _ _)
      have htail : ∀ v : α, (k, v) ∉ rest := fun v hv => h v (List.mem_cons_of_mem _ hv)
      rw [mergeOne, List.foldl_cons]
      rw [show (List.foldl (fun a p => dinsert p.1 p.2 a) (dinsert k1 v1 acc) rest) =
        mergeOne (dinsert k1 v1 acc) rest from rfl]
      rw [ih htail (dinsert k1 v1 acc), dlookup_dinsert, if_neg hk1]

/-- Merging a dict all of whose entries for a key carry the value `p`
preserves a lookup already equal to `p`. -/
theorem dlookup_mergeOne_keep (k : String) (p : α) (m : List (String × α))
    (h : ∀ v : α, (k, v) ∈ m → v = p) :
    ∀ acc, dlookup k acc = some p → dlookup k (mergeOne acc m) = some p := by
  induction m with
  | nil => intro acc hacc; exact hacc
  | cons q rest ih =>
      intro acc hacc
      obtain ⟨k1, v1⟩ := q
      have htail : ∀ v : α, (k, v) ∈ rest → v = p :=
        fun v hv => h v (List.mem_cons_of_mem _ hv)
      rw [mergeOne, List.foldl_cons]
      rw [show (List.foldl (fun a p => dinsert p.1 p.2 a) (dinsert k1 v1 acc) rest) =
        mergeOne (dinsert k1 v1 acc) rest from rfl]
      apply ih htail
      rw [dlookup_dinsert]
      by_cases hk1 : k1 = k
      · have : v1 = p := h v1 (by rw [hk1]; exact List.mem_cons_self _ _)
        rw [if_pos hk1, this]
      · rw [if_neg hk1]; exact hacc

/-- Merging a dict that does contain an entry for the key (all its
entries for it carrying `p`) makes the lookup `p`. -/
theorem dlookup_mergeOne_intro (k : String) (p : α) (m : List (String × α))
    (h : ∀ v : α, (k, v) ∈ m → v = p) (hm : ∃ v : α, (k, v) ∈ m) :
    ∀ acc, dlookup k (mergeOne acc m) = some p := by
  induction m with
  | nil => obtain ⟨v, hv⟩ := hm; cases hv
  | cons q rest ih =>
      intro acc
      obtain ⟨k1, v1⟩ := q
      have htail : ∀ v : α, (k, v) ∈ rest → v = p :=
        fun v hv => h v (List.mem_cons_of_mem _ hv)
      rw [mergeOne, List.foldl_cons]
      rw [show (List.foldl (fun a p => dinsert p.1 p.2 a) (dinsert k1 v1 acc) rest) =
        mergeOne (dinsert k1 v1 acc) rest from rfl]
      by_cases hk1 : k1 = k
      · have hval : v1 = p := h v1 (by rw [hk1]; exact List.mem_cons_self _ _)
        apply dlookup_mergeOne_keep k p rest htail
        rw [dlookup_dinsert, if_pos hk1, hval]
      · obtain ⟨v, hv⟩ := hm
        have hvrest : (k, v) ∈ rest := by
          rcases List.mem_cons.mp hv with hv | hv
          · exact absurd (congrArg Prod.fst hv).symm hk1
          · exact hv
        exact ih htail ⟨v, hvrest⟩ (dinsert k1 v1 acc)

/-- Folding the per-worker dicts: if every entry for the key across all
dicts carries `p`, and either the accumulator already maps the key to
`p` or some dict has an entry for it, the merged lookup is `p`. -/
theorem dlookup_foldl_mergeOne (k : String) (p : α)
    (maps : List (List (String × α)))
    (h : ∀ m ∈ maps, ∀ v : α, (k, v) ∈ m → v = p) :
    ∀ acc, (dlookup k acc = some p ∨ ∃ m ∈ maps, ∃ v : α, (k, v) ∈ m) →
      dlookup k (maps.foldl mergeOne acc) = some p := by
  induction maps with
  | nil =>
      intro acc hacc
      rcases hacc with hacc | ⟨m, hm, _⟩
      · exact hacc
      · cases hm
  | cons m maps ih =>
      intro acc hacc
      have hm := h m (List.mem_cons_self _ _)
      have htail : ∀ m2 ∈ maps, ∀ v : α, (k, v) ∈ m2 → v = p :=
        fun m2 hm2 v hv => h m2 (List.mem_cons_of_mem _ hm2) v hv
      rw [List.foldl_cons]
      by_cases hc : ∃ v : α, (k, v) ∈ m
      · exact ih htail (mergeOne acc m)
          (Or.inl (dlookup_mergeOne_intro k p m hm hc acc))
      · have hnone : ∀ v : α, (k, v) ∉ m := by
          intro v hv; exact hc ⟨v, hv⟩
        rcases hacc with hacc | ⟨m2, hm2, v, hv⟩
        · exact ih htail (mergeOne acc m)
            (Or.inl (by rw [dlookup_mergeOne_of_no_entry k m hnone acc]; exact hacc))
        · rcases List.mem_cons.mp hm2 with hm2 | hm2
          · exact absurd (hm2 ▸ hv) (hnone v)
          · exact ih htail (mergeOne acc m) (Or.inr ⟨m2, hm2, v, hv⟩)

/-- Folding dicts none of which has an entry for the key leaves the
lookup unchanged. -/
theorem dlookup_foldl_mergeOne_none (k : String)
    (maps : List (List (String × α)))
    (h : ∀ m ∈ maps, ∀ v : α, (k, v) ∉ m) :
    ∀ acc, dlookup k (maps.foldl mergeOne acc) = dlookup k acc := by
  induction maps with
  | nil => intro acc; rfl
  | cons m maps ih =>
      intro acc
      have hm := h m (List.mem_cons_self _ _)
      have htail : ∀ m2 ∈ maps, ∀ v : α, (k, v) ∉ m2 :=
        fun m2 hm2 v hv => h m2 (List.mem_cons_of_mem _ hm2) v hv
      rw [List.foldl_cons, ih htail (mergeOne acc m),
        dlookup_mergeOne_of_no_entry k m hm acc]

/-- A list whose elements all map to `.ok` values maps to the `.ok` of
the value list under `mapM`. -/
theorem mapM_except_ok {β γ : Type} (g : β → Except String γ) (gg : β → γ) :
    ∀ l : List β, (∀ x ∈ l, g x = .ok (gg x)) → l.mapM g = .ok (l.map gg) := by
  intro l
  induction l with
  | nil => intro _; rfl
  | cons x xs ih =>
      intro h
      rw [List.mapM_cons, h x (List.mem_cons_self x xs),
        ih (fun y hy => h y (List.mem_cons_of_mem x hy))]
      rfl

end MergeLemmas

/-- C1: when every fetch succeeds, for every worker count `W > 1` the
parallel run (`numpy.array_split` into `W` shards, one `query_urls` run
per shard, dict union of the per-shard results) returns a map equal
(same lookup on every key) to the one sequential `query_urls` run over
the full sequence; and `run` with `max_workers == 1` invokes
`query_urls` directly on the full sequence, returning its result
unchanged. -/
theorem parallel_run_equals_sequential (f : String → Outcome α) (payload : String → α)
    (nmaxtimeouts : Nat) (identifiers : List String)
    (hall : ∀ i ∈ identifiers, f i = .success (payload i)) :
    (∀ w : Int, 1 < w →
      ∃ mp ms, query_urls_parallel f nmaxtimeouts identifiers w = .ok mp ∧
        query_urls f nmaxtimeouts identifiers = .ok ms ∧
        ∀ k, dlookup k mp = dlookup k ms) ∧
    run f nmaxtimeouts identifiers (.int 1) = query_urls f nmaxtimeouts identifiers := by
  have hseq : ∀ l : List String, (∀ i ∈ l, f i = .success (payload i)) →
      query_urls f nmaxtimeouts l = .ok (accSucc f l []) := by
    intro l hl
    have hkinds : ∀ i ∈ l, (f i).isSuccess = true ∨ (f i).isTimeout = true := by
      intro i hi; rw [hl i hi]; exact Or.inl rfl
    have hzero : countT f l = 0 := by
      apply countT_eq_zero; intro i hi; rw [hl i hi]; rfl
    have h := query_urls_aux_timeout_run f nmaxtimeouts l hkinds [] 0 [] (by omega)
    rw [List.append_nil] at h
    rw [query_urls, h, query_urls_aux]
  constructor
  · intro w hw
    have hwn : ¬ w ≤ 0 := by omega
    have hwpos : 0 < w.toNat := by omega
    set shards := arraySplit identifiers w.toNat with hshards
    have hmemids : ∀ s ∈ shards, ∀ i ∈ s, i ∈ identifiers := by
      intro s hs i hi
      exact mem_of_mem_arraySplit identifiers w.toNat hwpos s hs i hi
    have hok : ∀ s ∈ shards, query_urls f nmaxtimeouts s = .ok (accSucc f s []) := by
      intro s hs
      exact hseq s (fun i hi => hall i (hmemids s hs i hi))
    have hmapM : shards.mapM (fun shard => query_urls f nmaxtimeouts shard) =
        .ok (shards.map (fun s => accSucc f s [])) :=
      mapM_except_ok _ _ shards hok
    refine ⟨mergeAll (shards.map (fun s => accSucc f s [])), accSucc f identifiers [],
      ?_, hseq identifiers hall, ?_⟩
    · rw [query_urls_parallel, if_neg hwn, ← hshards, hmapM]
      rfl
    · intro k
      have hentry : ∀ m ∈ shards.map (fun s => accSucc f s []),
          ∀ v : α, (k, v) ∈ m → v = payload k := by
        intro m hm v hv
        obtain ⟨s, hs, rfl⟩ := List.mem_map.mp hm
        rcases mem_accSucc f s k v [] hv with hc | ⟨hks, hfk⟩
        · cases hc
        · have := hall k (hmemids s hs k hks)
          rw [this] at hfk
          exact (Outcome.success.inj hfk).symm
      by_cases hk : k ∈ identifiers
      · have hrhs : dlookup k (accSucc f identifiers []) = some (payload k) :=
          dlookup_accSucc_of_success f identifiers k (payload k) hk (hall k hk) []
        rw [hrhs]
        have hjoin : identifiers = shards.flatten :=
          (join_arraySplit identifiers w.toNat hwpos).symm
        have hks : ∃ s ∈ shards, k ∈ s := by
          rw [hjoin] at hk
          exact List.mem_flatten.mp hk
        obtain ⟨s, hs, hkmem⟩ := hks
        have hlook : dlookup k (accSucc f s []) = some (payload k) :=
          dlookup_accSucc_of_success f s k (payload k) hkmem
            (hall k (hmemids s hs k hkmem)) []
        exact dlookup_foldl_mergeOne k (payload k) _ hentry []
          (Or.inr ⟨accSucc f s [], List.mem_map_of_mem _ hs, payload k,
            mem_of_dlookup k (payload k) _ hlook⟩)
      · have hrhs : dlookup k (accSucc f identifiers []) = dlookup k ([] : List (String × α)) :=
          dlookup_accSucc_of_not_mem f identifiers k hk []
        rw [hrhs]
        have hnone : ∀ m ∈ shards.map (fun s => accSucc f s []), ∀ v : α, (k, v) ∉ m := by
          intro m hm v hv
          obtain ⟨s, hs, rfl⟩ := List.mem_map.mp hm
          rcases mem_accSucc f s k v [] hv with hc | ⟨hks, _⟩
          · cases hc
          · exact hk (hmemids s hs k hks)
        rw [mergeAll, dlookup_foldl_mergeOne_none k _ hnone []]
  · rfl

/-- Witness for C1 on three identifiers with two workers and with
worker count one. -/
theorem parallel_run_equals_sequential_witness :
    (∃ mp ms, query_urls_parallel wfP 10 ["a", "bb", "c"] 2 = .ok mp ∧
      query_urls wfP 10 ["a", "bb", "c"] = .ok ms ∧
      ∀ k, dlookup k mp = dlookup k ms) ∧
    run wfP 10 ["a", "bb", "c"] (.int 1) = query_urls wfP 10 ["a", "bb", "c"] :=
  have h := parallel_run_equals_sequential wfP (fun i => 10 * i.length) 10
    ["a", "bb", "c"] (by decide)
  ⟨h.1 2 (by decide), h.2⟩

/-- Counterexample for C8: the `run` entry point does not validate
positivity.  The integer 0 is not positive, yet the
`isinstance(max_workers, int)` check (lines 204-205) accepts it without
a configuration error; `run(0)` then fails later, inside the
partitioning step, with a different (numpy) error. -/
theorem run_validation_accepts_nonpositive_int :
    validateMaxWorkers (PyVal.int 0) = .ok () ∧
    ¬ (0 : Int) > 0 ∧
    run (fun _ => Outcome.success (0 : Nat)) 10 ["a"] (PyVal.int 0) =
      .error "ValueError: number sections must be larger than 0." := by
  refine ⟨rfl, by decide, ?_⟩
  rfl

/-- C8 (amended): the `run` entry point validates that `worker_count`
is an integer — positivity is not part of the validation — and for
every non-integer `worker_count` it raises the configuration error
immediately; the result does not depend on the fetch oracle, so no
fetch is attempted. -/
theorem run_nonint_raises_before_fetch {α : Type} (nmaxtimeouts : Nat)
    (identifiers : List String) (w : PyVal) (hw : ∀ n : Int, w ≠ .int n) :
    ∃ e, validateMaxWorkers w = .error e ∧
      ∀ f : String → Outcome α, run f nmaxtimeouts identifiers w = .error e := by
  cases w with
  | int n => exact absurd rfl (hw n)
  | str s =>
      exact ⟨"ValueError: max_worker is of type str. Should be Int.", rfl, fun f => rfl⟩
  | other t =>
      exact ⟨"ValueError: max_worker is of type " ++ t ++ ". Should be Int.", rfl,
        fun f => rfl⟩

/-- Witness for the amended C8: a string worker count. -/
theorem run_nonint_raises_before_fetch_witness :
    ∃ e, validateMaxWorkers (PyVal.str "two") = .error e ∧
      ∀ f : String → Outcome Nat, run f 10 ["a"] (PyVal.str "two") = .error e :=
  run_nonint_raises_before_fetch 10 ["a"] (PyVal.str "two")
    (fun n h => by cases h)

/-- Counterexample for C9: the constructor does not validate the number
of substitution slots.  The string template `"nosub"` has zero slots
(not exactly one), yet construction succeeds, producing a URL that
ignores the identifier. -/
theorem init_accepts_zero_slot_template :
    countSlots "nosub" = 0 ∧
    base_scraper_init (PyVal.str "kw") (PyVal.str "nosub") ["a"] =
      .ok [("a", "nosub")] := by
  constructor
  · rfl
  · rfl

/-- C9 (amended): the constructor validates at setup time only that the
URL template is a string — the number of substitution slots is not
checked — and construction with a non-string template raises the
configuration error immediately; the constructor performs no network
call (its embedding takes no fetch oracle at all). -/
theorem init_nonstring_template_raises (keyword : PyVal) (url_re : PyVal)
    (identifiers : List String) (h : ∀ s : String, url_re ≠ .str s) :
    base_scraper_init keyword url_re identifiers =
      .error "TypeError: url_re must be a str template consisting of an url with variable input" := by
  cases url_re with
  | int n => rfl
  | str s => exact absurd rfl (h s)
  | other t => rfl

/-- Witness for the amended C9: an integer template. -/
theorem init_nonstring_template_raises_witness :
    base_scraper_init (PyVal.str "kw") (PyVal.int 3) ["a"] =
      .error "TypeError: url_re must be a str template consisting of an url with variable input" :=
  init_nonstring_template_raises (PyVal.str "kw") (PyVal.int 3) ["a"]
    (fun s h => by cases h)

/-- C10 (code bug): `into_DataFrame` builds one row per identifier ×
sub-type for identifiers present in the merged map, and a row with null
charger type, availability and total for a missing identifier — but
the timestamp it writes into that null row is the stale Python local
`datestamp_` (line 185), so when the very first identifiers are missing
the local is unbound and the transform raises `NameError` instead of
producing the null-filled row the claim (and the spec) promises.  The
second conjunct exhibits the working case on which the null row does
appear (with the stale timestamp 9 of the preceding present
identifier). -/
theorem into_DataFrame_first_missing_raises :
    into_DataFrame (β := Nat) ["a"] [] =
      .error "NameError: name datestamp_ is not defined" ∧
    into_DataFrame ["b", "a"] [[("b", [("t", (1, 2, 9))])]] =
      .ok [Row.mk "b" (some "t") (some 1) (some 2) 9,
           Row.mk "a" none none none 9] := by
  constructor
  · rfl
  · rfl
